import Mathlib

/-!
Verification of the Tic-Tac-Toe minimax engine from
`4. Tic-Tac-Toe Game/main.py`.

The board is the Python list of 9 one-character strings; a cell is one of
`" "`, `"X"`, `"O"`, embedded as the inductive type `Cell`.  Indexing
`board[i]` is embedded as `List.getD i Cell.empty`, which agrees with the
Python indexing on every board of length 9 (the only boards the program
builds).  The in-place mutations `board[move] = symbol` of the source are
embedded by threading the board explicitly: `minimaxAux` returns the board
alongside the score and move, so that the apply/undo discipline of the
search is visible and provable.  The recursion of `minimax` is embedded
with an explicit fuel parameter; the fuel `countEmpty board + 1` is proved
sufficient (`minimaxAux_fuel_irrel`), which is the termination argument of
the source recursion.
-/

set_option maxRecDepth 20000

/-- Cell states of the 3x3 board: the strings `" "`, `"X"`, `"O"` of the source. -/
inductive Cell where
  | empty
  | X
  | O
deriving DecidableEq, Repr

/-- The board of the source: a list of 9 cells (`[" "] * 9` at game start). -/
abbrev Board := List Cell

/-- Source `available_moves`: `[i for i, cell in enumerate(board) if cell == " "]`. -/
def available_moves (board : Board) : List Nat :=
  (board.enum.filter (fun p => p.2 == Cell.empty)).map Prod.fst

/-- Indexing `board[i]` of the source; total via a default, which agrees with
the Python indexing on boards of length 9. -/
def cellAt (board : Board) (i : Nat) : Cell := board.getD i Cell.empty

/-- Source `win_lines` inside `winner`: three rows, three columns, two diagonals,
in this order. -/
def win_lines : List (Nat × Nat × Nat) :=
  [(0, 1, 2), (3, 4, 5), (6, 7, 8),
   (0, 3, 6), (1, 4, 7), (2, 5, 8),
   (0, 4, 8), (2, 4, 6)]

/-- Loop body test of source `winner`: `board[a] != " " and board[a] == board[b] == board[c]`. -/
def lineWins (board : Board) (t : Nat × Nat × Nat) : Bool :=
  cellAt board t.1 != Cell.empty &&
    cellAt board t.1 == cellAt board t.2.1 &&
    cellAt board t.1 == cellAt board t.2.2

/-- Source `winner`: return `board[a]` for the first winning line, else `None`. -/
def winner (board : Board) : Option Cell :=
  (win_lines.find? (lineWins board)).map (fun t => cellAt board t.1)

/-- Source `is_draw`: `winner(board) is None and all(cell != " " for cell in board)`. -/
def is_draw (board : Board) : Bool :=
  (winner board).isNone && board.all (fun c => c != Cell.empty)

/-- Outcome classification of the spec, derived from the source checks in the
order the game loop performs them: winner first, then draw, else in progress. -/
inductive Outcome where
  | winner (s : Cell)
  | draw
  | inProgress
deriving DecidableEq, Repr

/-- Outcome of a board, recomputed from `winner` and `is_draw` as in the source
game loop. -/
def outcome (board : Board) : Outcome :=
  match winner board with
  | some s => Outcome.winner s
  | none => if is_draw board then Outcome.draw else Outcome.inProgress

/-- Number of empty cells of a board; the measure that shrinks at each ply of
the search. -/
def countEmpty (board : Board) : Nat := board.countP (fun c => c == Cell.empty)

/-- The board-mutation `board[move] = symbol` performed at the source call
sites (`minimax`, `play_game`); a Python list assignment fails (raises) when
the index is out of range, embedded as `none`. -/
def apply (board : Board) (move : Nat) (symbol : Cell) : Option Board :=
  if move < board.length then some (board.set move symbol) else none

/-- The board-mutation `board[move] = " "` that the search performs to
backtrack. -/
def undo (board : Board) (move : Nat) : Option Board :=
  apply board move Cell.empty

/-- Source `minimax`, with the in-place mutations embedded by threading the
board through the move loop and returning it with the result, and with an
explicit fuel in place of the unbounded Python recursion (fuel
`countEmpty board + 1` is sufficient, see `minimaxAux_fuel_irrel`).
Scores: `+1` ai wins, `-1` human wins, `0` draw; seeds `-10` and `10`. -/
def minimaxAux : Nat → Board → Cell → Cell → Bool → Int × Option Nat × Board
  | 0, board, _, _, _ => (0, none, board)
  | fuel + 1, board, ai, human, maximizing =>
    if winner board = some ai then (1, none, board)
    else if winner board = some human then (-1, none, board)
    else if is_draw board then (0, none, board)
    else if maximizing then
      (available_moves board).foldl
        (fun acc move =>
          let r := minimaxAux fuel ((acc.2.2).set move ai) ai human false
          let b2 := (r.2.2).set move Cell.empty
          if r.1 > acc.1 then (r.1, some move, b2) else (acc.1, acc.2.1, b2))
        ((-10 : Int), none, board)
    else
      (available_moves board).foldl
        (fun acc move =>
          let r := minimaxAux fuel ((acc.2.2).set move human) ai human true
          let b2 := (r.2.2).set move Cell.empty
          if r.1 < acc.1 then (r.1, some move, b2) else (acc.1, acc.2.1, b2))
        ((10 : Int), none, board)

/-- Source `minimax` as called by the program: the `(score, best_move)` pair. -/
def minimax (board : Board) (ai human : Cell) (maximizing : Bool) : Int × Option Nat :=
  ((minimaxAux (countEmpty board + 1) board ai human maximizing).1,
   (minimaxAux (countEmpty board + 1) board ai human maximizing).2.1)

/-- Source `get_ai_move`: the minimax move, with the `moves[0]` fallback when
minimax returns `None`; `moves[0]` on an empty list raises, embedded as the
`none` of `List.head?`. -/
def get_ai_move (board : Board) (ai human : Cell) : Option Nat :=
  match (minimax board ai human true).2 with
  | some move => some move
  | none => (available_moves board).head?

/-- Modelled from the spec: the game-theoretic value of a position, written
independently of the move-tracking loop of the source — terminal positions
score `+1`, `-1`, `0` exactly as the source checks them, and a non-terminal
position is worth the maximum (maximizing) or minimum (minimizing) of the
values of the positions one legal move away.  Fuel-indexed like the search. -/
def gameValueAux : Nat → Board → Cell → Cell → Bool → Int
  | 0, _, _, _, _ => 0
  | fuel + 1, board, ai, human, maximizing =>
    if winner board = some ai then 1
    else if winner board = some human then -1
    else if is_draw board then 0
    else if maximizing then
      (((available_moves board).map
        (fun m => gameValueAux fuel (board.set m ai) ai human false)).max?).getD 0
    else
      (((available_moves board).map
        (fun m => gameValueAux fuel (board.set m human) ai human true)).min?).getD 0

/-- Game-theoretic value of a board, at sufficient fuel. -/
def gameValue (board : Board) (ai human : Cell) (maximizing : Bool) : Int :=
  gameValueAux (countEmpty board + 1) board ai human maximizing

/-- Proof device: the pure best-score/best-move loop of the maximizing branch,
with the board threading stripped away. -/
def pickMax (f : Nat → Int) : List Nat → Int × Option Nat → Int × Option Nat
  | [], acc => acc
  | m :: ms, acc => pickMax f ms (if f m > acc.1 then (f m, some m) else acc)

/-- Proof device: the pure best-score/best-move loop of the minimizing branch. -/
def pickMin (f : Nat → Int) : List Nat → Int × Option Nat → Int × Option Nat
  | [], acc => acc
  | m :: ms, acc => pickMin f ms (if f m < acc.1 then (f m, some m) else acc)

/-- Proof device: a fast, short-circuiting check that X (moving when
`maximizing`) can force at least a draw; sound for the game value
(`canDrawAux_sound`), and cheap enough for the kernel to evaluate on the
empty board. -/
def canDrawAux : Nat → Board → Bool → Bool
  | 0, _, _ => false
  | fuel + 1, b, maximizing =>
    if winner b = some Cell.X then true
    else if winner b = some Cell.O then false
    else if is_draw b then true
    else if maximizing then
      (available_moves b).any (fun m => canDrawAux fuel (b.set m Cell.X) false)
    else
      (available_moves b).all (fun m => canDrawAux fuel (b.set m Cell.O) true)

/-- The starting board `[" "] * 9` of `play_game`. -/
def emptyBoard : Board := List.replicate 9 Cell.empty

/-- One step of the game loop of `play_game` with the AI as X and an adversary
strategy `adv` as O: on the AI's turn (`true`) the move returned by
`get_ai_move` is played, on the adversary's turn the adversary's choice is
played; a finished game is left unchanged. -/
def stepGame (adv : Board → Nat) : Board × Bool → Board × Bool :=
  fun s =>
    if outcome s.1 = Outcome.inProgress then
      if s.2 then
        match get_ai_move s.1 Cell.X Cell.O with
        | some m => (s.1.set m Cell.X, false)
        | none => s
      else (s.1.set (adv s.1) Cell.O, true)
    else s

/-! Basic lemmas about the board operations. -/

/-- Writing back the value a cell already holds leaves the list unchanged. -/
theorem set_of_get? {α : Type} : ∀ (l : List α) (i : Nat) (a : α),
    l.get? i = some a → l.set i a = l := by
  intro l
  induction l with
  | nil => intro i a h; simp [List.get?] at h
  | cons x xs ih =>
    intro i a h
    cases i with
    | zero =>
      simp [List.get?] at h
      simp [List.set, h]
    | succ n =>
      simp only [List.get?] at h
      simp [List.set, ih n a h]

/-- Membership in `available_moves` is exactly emptiness of the indexed cell. -/
theorem mem_available_moves {b : Board} {m : Nat} :
    m ∈ available_moves b ↔ b.get? m = some Cell.empty := by
  unfold available_moves
  constructor
  · rintro h
    rcases List.mem_map.mp h with ⟨⟨i, c⟩, hmem, rfl⟩
    rcases List.mem_filter.mp hmem with ⟨henum, hc⟩
    have hc2 : c = Cell.empty := by simpa using hc
    have := List.mem_enum_iff_get?.mp henum
    simpa [hc2] using this
  · intro h
    refine List.mem_map.mpr ⟨(m, Cell.empty), List.mem_filter.mpr ⟨?_, by simp⟩, rfl⟩
    exact List.mem_enum_iff_get?.mpr h

/-- The legal moves are listed in strictly ascending index order. -/
theorem available_moves_pairwise (b : Board) :
    List.Pairwise (fun i j => i < j) (available_moves b) := by
  have h1 : (available_moves b).Sublist (b.enum.map Prod.fst) :=
    (List.filter_sublist _).map _
  rw [List.enum_map_fst] at h1
  exact List.Pairwise.sublist h1 (List.pairwise_lt_range _)

/-- Filling an empty cell with a non-empty symbol lowers the empty count by one. -/
theorem countEmpty_set {b : Board} {m : Nat} {c : Cell}
    (hm : b.get? m = some Cell.empty) (hc : c ≠ Cell.empty) :
    countEmpty (b.set m c) + 1 = countEmpty b := by
  rcases List.get?_eq_some.mp hm with ⟨hlt, hget⟩
  have hbm : b[m] = Cell.empty := hget
  have hset := List.countP_set (fun x => x == Cell.empty) b m c hlt
  have hpos : 0 < countEmpty b := by
    refine List.countP_pos.mpr ⟨Cell.empty, ?_, by simp⟩
    rw [← hbm]; exact List.getElem_mem hlt
  have hcfalse : (c == Cell.empty) = false := by
    simp [hc]
  unfold countEmpty at *
  rw [hset, hbm]
  simp [hcfalse]
  omega

/-- A reported winner is never the blank symbol. -/
theorem winner_ne_empty {b : Board} {c : Cell} (h : winner b = some c) :
    c ≠ Cell.empty := by
  unfold winner at h
  cases hf : List.find? (lineWins b) win_lines with
  | none => rw [hf] at h; simp at h
  | some t =>
    rw [hf] at h
    simp at h
    have hw := List.find?_some hf
    simp only [lineWins, Bool.and_eq_true, bne_iff_ne, beq_iff_eq] at hw
    rw [← h]
    exact hw.1.1

/-- A board that is neither won nor drawn still has a legal move. -/
theorem available_ne_nil {b : Board}
    (hw : winner b = none) (hd : is_draw b = false) :
    available_moves b ≠ [] := by
  unfold is_draw at hd
  rw [hw] at hd
  simp only [Option.isNone_none, Bool.true_and] at hd
  have hex : ∃ c ∈ b, c = Cell.empty := by
    by_contra hall
    push_neg at hall
    have : b.all (fun c => c != Cell.empty) = true :=
      List.all_eq_true.mpr (fun c hc => by simpa using hall c hc)
    rw [this] at hd
    simp at hd
  rcases hex with ⟨c, hcmem, hc⟩
  rcases List.mem_iff_get?.mp hcmem with ⟨n, hn⟩
  have : n ∈ available_moves b := mem_available_moves.mpr (by rw [hn, hc])
  exact List.ne_nil_of_mem this

/-! Properties of the pure best-move loops `pickMax` and `pickMin`. -/

/-- The running best score never decreases. -/
theorem pickMax_acc_le (f : Nat → Int) :
    ∀ (ms : List Nat) (acc : Int × Option Nat), acc.1 ≤ (pickMax f ms acc).1 := by
  intro ms
  induction ms with
  | nil => intro acc; exact le_refl _
  | cons m ms ih =>
    intro acc
    simp only [pickMax]
    by_cases h : f m > acc.1
    · simp only [if_pos h]
      exact le_of_lt (lt_of_lt_of_le h (ih (f m, some m)))
    · simp only [if_neg h]
      exact ih acc

/-- Every candidate score is bounded by the final best score. -/
theorem pickMax_bound (f : Nat → Int) :
    ∀ (ms : List Nat) (acc : Int × Option Nat) (m : Nat),
      m ∈ ms → f m ≤ (pickMax f ms acc).1 := by
  intro ms
  induction ms with
  | nil => intro acc m hm; simp at hm
  | cons x ms ih =>
    intro acc m hm
    simp only [pickMax]
    rcases List.mem_cons.mp hm with rfl | hmem
    · by_cases h : f m > acc.1
      · simp only [if_pos h]
        exact le_trans (le_refl _) (pickMax_acc_le f ms (f m, some m))
      · simp only [if_neg h]
        exact le_trans (not_lt.mp h) (pickMax_acc_le f ms acc)
    · by_cases h : f x > acc.1
      · simp only [if_pos h]; exact ih _ m hmem
      · simp only [if_neg h]; exact ih _ m hmem

/-- The final best score is the seed or an achieved candidate score. -/
theorem pickMax_achieved (f : Nat → Int) :
    ∀ (ms : List Nat) (acc : Int × Option Nat),
      (pickMax f ms acc).1 = acc.1 ∨ ∃ m ∈ ms, f m = (pickMax f ms acc).1 := by
  intro ms
  induction ms with
  | nil => intro acc; exact Or.inl rfl
  | cons x ms ih =>
    intro acc
    simp only [pickMax]
    by_cases h : f x > acc.1
    · simp only [if_pos h]
      rcases ih (f x, some x) with h1 | ⟨m, hm, hfm⟩
      · exact Or.inr ⟨x, List.mem_cons_self _ _, h1.symm⟩
      · exact Or.inr ⟨m, List.mem_cons_of_mem _ hm, hfm⟩
    · simp only [if_neg h]
      rcases ih acc with h1 | ⟨m, hm, hfm⟩
      · exact Or.inl h1
      · exact Or.inr ⟨m, List.mem_cons_of_mem _ hm, hfm⟩

/-- When no candidate beats the seed, the loop returns the seed unchanged. -/
theorem pickMax_stable (f : Nat → Int) :
    ∀ (ms : List Nat) (acc : Int × Option Nat),
      (∀ m ∈ ms, f m ≤ acc.1) → pickMax f ms acc = acc := by
  intro ms
  induction ms with
  | nil => intro acc _; rfl
  | cons x ms ih =>
    intro acc h
    simp only [pickMax]
    rw [if_neg (not_lt.mpr (h x (List.mem_cons_self _ _)))]
    exact ih acc (fun m hm => h m (List.mem_cons_of_mem _ hm))

/-- When some candidate beats the seed, the returned move is the first
candidate achieving the final best score: all earlier candidates score
strictly below it. -/
theorem pickMax_found (f : Nat → Int) :
    ∀ (ms : List Nat) (acc : Int × Option Nat),
      (∃ m ∈ ms, acc.1 < f m) →
      ∃ l1 mbest l2, ms = l1 ++ mbest :: l2 ∧
        (pickMax f ms acc).2 = some mbest ∧
        f mbest = (pickMax f ms acc).1 ∧
        ∀ x ∈ l1, f x < f mbest := by
  intro ms
  induction ms with
  | nil => intro acc h; simp at h
  | cons x ms ih =>
    intro acc h
    by_cases hx : f x > acc.1
    · by_cases hrest : ∃ m ∈ ms, f x < f m
      · rcases ih (f x, some x) hrest with ⟨l1, mbest, l2, hms, hm2, hfb, hl1⟩
        refine ⟨x :: l1, mbest, l2, by rw [hms, List.cons_append], ?_, ?_, ?_⟩
        · simp only [pickMax, if_pos hx]; exact hm2
        · simp only [pickMax, if_pos hx]; exact hfb
        · intro y hy
          rcases List.mem_cons.mp hy with hxy | hyl1
          · rw [hxy, hfb]
            rcases hrest with ⟨m, hm, hfm⟩
            exact lt_of_lt_of_le hfm (pickMax_bound f ms _ m hm)
          · exact hl1 y hyl1
      · push_neg at hrest
        refine ⟨[], x, ms, rfl, ?_, ?_, by intro y hy; simp at hy⟩
        · simp only [pickMax, if_pos hx]
          rw [pickMax_stable f ms (f x, some x) hrest]
        · simp only [pickMax, if_pos hx]
          rw [pickMax_stable f ms (f x, some x) hrest]
    · rcases h with ⟨m, hm, hfm⟩
      have hmms : m ∈ ms := by
        cases List.mem_cons.mp hm with
        | inl h2 => exact absurd (h2 ▸ hfm) hx
        | inr h2 => exact h2
      rcases ih acc ⟨m, hmms, hfm⟩ with ⟨l1, mbest, l2, hms, hm2, hfb, hl1⟩
      refine ⟨x :: l1, mbest, l2, by rw [hms, List.cons_append], ?_, ?_, ?_⟩
      · simp only [pickMax, if_neg hx]; exact hm2
      · simp only [pickMax, if_neg hx]; exact hfb
      · intro y hy
        rcases List.mem_cons.mp hy with hxy | hyl1
        · rw [hxy, hfb]
          calc f x ≤ acc.1 := not_lt.mp hx
            _ < f m := hfm
            _ ≤ _ := pickMax_bound f ms acc m hmms
        · exact hl1 y hyl1

/-- The loop result only depends on the scores of the listed candidates. -/
theorem pickMax_congr (f g : Nat → Int) :
    ∀ (ms : List Nat) (acc : Int × Option Nat),
      (∀ m ∈ ms, f m = g m) → pickMax f ms acc = pickMax g ms acc := by
  intro ms
  induction ms with
  | nil => intro acc _; rfl
  | cons x ms ih =>
    intro acc h
    simp only [pickMax, h x (List.mem_cons_self _ _)]
    exact ih _ (fun m hm => h m (List.mem_cons_of_mem _ hm))

/-- The running best score never increases in the minimizing loop. -/
theorem pickMin_acc_ge (f : Nat → Int) :
    ∀ (ms : List Nat) (acc : Int × Option Nat), (pickMin f ms acc).1 ≤ acc.1 := by
  intro ms
  induction ms with
  | nil => intro acc; exact le_refl _
  | cons m ms ih =>
    intro acc
    simp only [pickMin]
    by_cases h : f m < acc.1
    · simp only [if_pos h]
      exact le_of_lt (lt_of_le_of_lt (ih (f m, some m)) h)
    · simp only [if_neg h]
      exact ih acc

/-- Every candidate score bounds the final best score from above. -/
theorem pickMin_bound (f : Nat → Int) :
    ∀ (ms : List Nat) (acc : Int × Option Nat) (m : Nat),
      m ∈ ms → (pickMin f ms acc).1 ≤ f m := by
  intro ms
  induction ms with
  | nil => intro acc m hm; simp at hm
  | cons x ms ih =>
    intro acc m hm
    simp only [pickMin]
    rcases List.mem_cons.mp hm with rfl | hmem
    · by_cases h : f m < acc.1
      · simp only [if_pos h]
        exact pickMin_acc_ge f ms (f m, some m)
      · simp only [if_neg h]
        exact le_trans (pickMin_acc_ge f ms acc) (not_lt.mp h)
    · by_cases h : f x < acc.1
      · simp only [if_pos h]; exact ih _ m hmem
      · simp only [if_neg h]; exact ih _ m hmem

/-- The final best score of the minimizing loop is the seed or achieved. -/
theorem pickMin_achieved (f : Nat → Int) :
    ∀ (ms : List Nat) (acc : Int × Option Nat),
      (pickMin f ms acc).1 = acc.1 ∨ ∃ m ∈ ms, f m = (pickMin f ms acc).1 := by
  intro ms
  induction ms with
  | nil => intro acc; exact Or.inl rfl
  | cons x ms ih =>
    intro acc
    simp only [pickMin]
    by_cases h : f x < acc.1
    · simp only [if_pos h]
      rcases ih (f x, some x) with h1 | ⟨m, hm, hfm⟩
      · exact Or.inr ⟨x, List.mem_cons_self _ _, h1.symm⟩
      · exact Or.inr ⟨m, List.mem_cons_of_mem _ hm, hfm⟩
    · simp only [if_neg h]
      rcases ih acc with h1 | ⟨m, hm, hfm⟩
      · exact Or.inl h1
      · exact Or.inr ⟨m, List.mem_cons_of_mem _ hm, hfm⟩

/-- When no candidate beats the seed, the minimizing loop is the identity. -/
theorem pickMin_stable (f : Nat → Int) :
    ∀ (ms : List Nat) (acc : Int × Option Nat),
      (∀ m ∈ ms, acc.1 ≤ f m) → pickMin f ms acc = acc := by
  intro ms
  induction ms with
  | nil => intro acc _; rfl
  | cons x ms ih =>
    intro acc h
    simp only [pickMin]
    rw [if_neg (not_lt.mpr (h x (List.mem_cons_self _ _)))]
    exact ih acc (fun m hm => h m (List.mem_cons_of_mem _ hm))

/-- When some candidate beats the seed, the minimizing loop returns the first
candidate achieving the final best score. -/
theorem pickMin_found (f : Nat → Int) :
    ∀ (ms : List Nat) (acc : Int × Option Nat),
      (∃ m ∈ ms, f m < acc.1) →
      ∃ l1 mbest l2, ms = l1 ++ mbest :: l2 ∧
        (pickMin f ms acc).2 = some mbest ∧
        f mbest = (pickMin f ms acc).1 ∧
        ∀ x ∈ l1, f mbest < f x := by
  intro ms
  induction ms with
  | nil => intro acc h; simp at h
  | cons x ms ih =>
    intro acc h
    by_cases hx : f x < acc.1
    · by_cases hrest : ∃ m ∈ ms, f m < f x
      · rcases ih (f x, some x) hrest with ⟨l1, mbest, l2, hms, hm2, hfb, hl1⟩
        refine ⟨x :: l1, mbest, l2, by rw [hms, List.cons_append], ?_, ?_, ?_⟩
        · simp only [pickMin, if_pos hx]; exact hm2
        · simp only [pickMin, if_pos hx]; exact hfb
        · intro y hy
          rcases List.mem_cons.mp hy with hxy | hyl1
          · rw [hxy, hfb]
            rcases hrest with ⟨m, hm, hfm⟩
            exact lt_of_le_of_lt (pickMin_bound f ms _ m hm) hfm
          · exact hl1 y hyl1
      · push_neg at hrest
        refine ⟨[], x, ms, rfl, ?_, ?_, by intro y hy; simp at hy⟩
        · simp only [pickMin, if_pos hx]
          rw [pickMin_stable f ms (f x, some x) hrest]
        · simp only [pickMin, if_pos hx]
          rw [pickMin_stable f ms (f x, some x) hrest]
    · rcases h with ⟨m, hm, hfm⟩
      have hmms : m ∈ ms := by
        cases List.mem_cons.mp hm with
        | inl h2 => exact absurd (h2 ▸ hfm) hx
        | inr h2 => exact h2
      rcases ih acc ⟨m, hmms, hfm⟩ with ⟨l1, mbest, l2, hms, hm2, hfb, hl1⟩
      refine ⟨x :: l1, mbest, l2, by rw [hms, List.cons_append], ?_, ?_, ?_⟩
      · simp only [pickMin, if_neg hx]; exact hm2
      · simp only [pickMin, if_neg hx]; exact hfb
      · intro y hy
        rcases List.mem_cons.mp hy with hxy | hyl1
        · rw [hxy, hfb]
          calc (pickMin f ms acc).1 ≤ f m := pickMin_bound f ms acc m hmms
            _ < acc.1 := hfm
            _ ≤ f x := not_lt.mp hx
        · exact hl1 y hyl1

/-- The minimizing loop result only depends on the listed candidate scores. -/
theorem pickMin_congr (f g : Nat → Int) :
    ∀ (ms : List Nat) (acc : Int × Option Nat),
      (∀ m ∈ ms, f m = g m) → pickMin f ms acc = pickMin g ms acc := by
  intro ms
  induction ms with
  | nil => intro acc _; rfl
  | cons x ms ih =>
    intro acc h
    simp only [pickMin, h x (List.mem_cons_self _ _)]
    exact ih _ (fun m hm => h m (List.mem_cons_of_mem _ hm))

/-- Antisymmetry instance for integer order, needed by the list max lemmas. -/
instance : Std.Antisymm (fun (x1 x2 : Int) => x1 ≤ x2) :=
  ⟨fun h1 h2 => le_antisymm h1 h2⟩

/-- With a seed below every candidate, the maximizing loop computes the list
maximum of the candidate scores. -/
theorem pickMax_max? (f : Nat → Int) (ms : List Nat) (acc : Int × Option Nat)
    (hne : ms ≠ []) (hlt : ∀ m ∈ ms, acc.1 < f m) :
    (ms.map f).max? = some (pickMax f ms acc).1 := by
  have hmem : (pickMax f ms acc).1 ∈ ms.map f := by
    rcases pickMax_achieved f ms acc with h1 | ⟨m, hm, hfm⟩
    · rcases List.exists_mem_of_ne_nil ms hne with ⟨m, hm⟩
      have := lt_of_lt_of_le (hlt m hm) (pickMax_bound f ms acc m hm)
      omega
    · exact List.mem_map.mpr ⟨m, hm, hfm⟩
  refine (List.max?_eq_some_iff (fun a => le_refl a) (fun a b => max_choice a b)
    (fun a b c => max_le_iff)).mpr ⟨hmem, ?_⟩
  intro y hy
  rcases List.mem_map.mp hy with ⟨m, hm, rfl⟩
  exact pickMax_bound f ms acc m hm

/-- With a seed above every candidate, the minimizing loop computes the list
minimum of the candidate scores. -/
theorem pickMin_min? (f : Nat → Int) (ms : List Nat) (acc : Int × Option Nat)
    (hne : ms ≠ []) (hlt : ∀ m ∈ ms, f m < acc.1) :
    (ms.map f).min? = some (pickMin f ms acc).1 := by
  have hmem : (pickMin f ms acc).1 ∈ ms.map f := by
    rcases pickMin_achieved f ms acc with h1 | ⟨m, hm, hfm⟩
    · rcases List.exists_mem_of_ne_nil ms hne with ⟨m, hm⟩
      have := lt_of_le_of_lt (pickMin_bound f ms acc m hm) (hlt m hm)
      omega
    · exact List.mem_map.mpr ⟨m, hm, hfm⟩
  refine (List.min?_eq_some_iff (fun a => le_refl a) (fun a b => min_choice a b)
    (fun a b c => le_min_iff)).mpr ⟨hmem, ?_⟩
  intro y hy
  rcases List.mem_map.mp hy with ⟨m, hm, rfl⟩
  exact pickMin_bound f ms acc m hm

/-! Pairing of apply and undo inside the search: the threaded board comes back
unchanged from every frame. -/

/-- Each iteration of the maximizing move loop hands the board back unchanged,
provided the recursive calls at the lower fuel do. -/
theorem foldl_board_max (fuel : Nat) (ai human : Cell) (b : Board)
    (hres : ∀ b2 : Board, (minimaxAux fuel b2 ai human false).2.2 = b2) :
    ∀ (ms : List Nat) (t : Int × Option Nat × Board),
      (∀ m ∈ ms, b.get? m = some Cell.empty) → t.2.2 = b →
      (ms.foldl
        (fun acc move =>
          let r := minimaxAux fuel ((acc.2.2).set move ai) ai human false
          let b2 := (r.2.2).set move Cell.empty
          if r.1 > acc.1 then (r.1, some move, b2) else (acc.1, acc.2.1, b2))
        t).2.2 = b := by
  intro ms
  induction ms with
  | nil => intro t _ ht; simpa using ht
  | cons m ms ih =>
    intro t hms ht
    have hm0 : b.get? m = some Cell.empty := hms m (List.mem_cons_self _ _)
    have hb2 : ((minimaxAux fuel ((t.2.2).set m ai) ai human false).2.2).set m Cell.empty
        = b := by
      rw [hres, ht, List.set_set, set_of_get? b m Cell.empty hm0]
    rw [List.foldl_cons]
    refine ih _ (fun x hx => hms x (List.mem_cons_of_mem _ hx)) ?_
    simp only []
    split
    · exact hb2
    · exact hb2

/-- Each iteration of the minimizing move loop hands the board back unchanged,
provided the recursive calls at the lower fuel do. -/
theorem foldl_board_min (fuel : Nat) (ai human : Cell) (b : Board)
    (hres : ∀ b2 : Board, (minimaxAux fuel b2 ai human true).2.2 = b2) :
    ∀ (ms : List Nat) (t : Int × Option Nat × Board),
      (∀ m ∈ ms, b.get? m = some Cell.empty) → t.2.2 = b →
      (ms.foldl
        (fun acc move =>
          let r := minimaxAux fuel ((acc.2.2).set move human) ai human true
          let b2 := (r.2.2).set move Cell.empty
          if r.1 < acc.1 then (r.1, some move, b2) else (acc.1, acc.2.1, b2))
        t).2.2 = b := by
  intro ms
  induction ms with
  | nil => intro t _ ht; simpa using ht
  | cons m ms ih =>
    intro t hms ht
    have hm0 : b.get? m = some Cell.empty := hms m (List.mem_cons_self _ _)
    have hb2 : ((minimaxAux fuel ((t.2.2).set m human) ai human true).2.2).set m Cell.empty
        = b := by
      rw [hres, ht, List.set_set, set_of_get? b m Cell.empty hm0]
    rw [List.foldl_cons]
    refine ih _ (fun x hx => hms x (List.mem_cons_of_mem _ hx)) ?_
    simp only []
    split
    · exact hb2
    · exact hb2

/-- Every call frame of the search returns the board exactly as it received
it: each tentative move application is undone before the frame returns. -/
theorem minimaxAux_board : ∀ (fuel : Nat) (b : Board) (ai human : Cell) (mx : Bool),
    (minimaxAux fuel b ai human mx).2.2 = b := by
  intro fuel
  induction fuel with
  | zero => intro b ai human mx; rfl
  | succ fuel ih =>
    intro b ai human mx
    rw [minimaxAux]
    split
    · rfl
    · split
      · rfl
      · split
        · rfl
        · split
          · exact foldl_board_max fuel ai human b (fun b2 => ih b2 ai human false)
              (available_moves b) _
              (fun x hx => mem_available_moves.mp hx) rfl
          · exact foldl_board_min fuel ai human b (fun b2 => ih b2 ai human true)
              (available_moves b) _
              (fun x hx => mem_available_moves.mp hx) rfl

/-- The maximizing move loop of the search equals the pure best-move loop over
the scores of the one-move-deeper searches, with the board handed back. -/
theorem foldl_eq_pickMax (fuel : Nat) (ai human : Cell) (b : Board) :
    ∀ (ms : List Nat) (s : Int) (mv : Option Nat),
      (∀ m ∈ ms, b.get? m = some Cell.empty) →
      ms.foldl
        (fun acc move =>
          let r := minimaxAux fuel ((acc.2.2).set move ai) ai human false
          let b2 := (r.2.2).set move Cell.empty
          if r.1 > acc.1 then (r.1, some move, b2) else (acc.1, acc.2.1, b2))
        (s, mv, b)
      = ((pickMax (fun m => (minimaxAux fuel (b.set m ai) ai human false).1) ms (s, mv)).1,
         (pickMax (fun m => (minimaxAux fuel (b.set m ai) ai human false).1) ms (s, mv)).2,
         b) := by
  intro ms
  induction ms with
  | nil => intro s mv _; rfl
  | cons m ms ih =>
    intro s mv hms
    have hm0 : b.get? m = some Cell.empty := hms m (List.mem_cons_self _ _)
    have hb2 : ((minimaxAux fuel (b.set m ai) ai human false).2.2).set m Cell.empty = b := by
      rw [minimaxAux_board, List.set_set, set_of_get? b m Cell.empty hm0]
    rw [List.foldl_cons]
    simp only [pickMax]
    by_cases hc : (minimaxAux fuel (b.set m ai) ai human false).1 > s
    · simp only [if_pos hc, hb2]
      exact ih _ _ (fun x hx => hms x (List.mem_cons_of_mem _ hx))
    · simp only [if_neg hc, hb2]
      exact ih _ _ (fun x hx => hms x (List.mem_cons_of_mem _ hx))

/-- The minimizing move loop of the search equals the pure best-move loop over
the scores of the one-move-deeper searches, with the board handed back. -/
theorem foldl_eq_pickMin (fuel : Nat) (ai human : Cell) (b : Board) :
    ∀ (ms : List Nat) (s : Int) (mv : Option Nat),
      (∀ m ∈ ms, b.get? m = some Cell.empty) →
      ms.foldl
        (fun acc move =>
          let r := minimaxAux fuel ((acc.2.2).set move human) ai human true
          let b2 := (r.2.2).set move Cell.empty
          if r.1 < acc.1 then (r.1, some move, b2) else (acc.1, acc.2.1, b2))
        (s, mv, b)
      = ((pickMin (fun m => (minimaxAux fuel (b.set m human) ai human true).1) ms (s, mv)).1,
         (pickMin (fun m => (minimaxAux fuel (b.set m human) ai human true).1) ms (s, mv)).2,
         b) := by
  intro ms
  induction ms with
  | nil => intro s mv _; rfl
  | cons m ms ih =>
    intro s mv hms
    have hm0 : b.get? m = some Cell.empty := hms m (List.mem_cons_self _ _)
    have hb2 : ((minimaxAux fuel (b.set m human) ai human true).2.2).set m Cell.empty = b := by
      rw [minimaxAux_board, List.set_set, set_of_get? b m Cell.empty hm0]
    rw [List.foldl_cons]
    simp only [pickMin]
    by_cases hc : (minimaxAux fuel (b.set m human) ai human true).1 < s
    · simp only [if_pos hc, hb2]
      exact ih _ _ (fun x hx => hms x (List.mem_cons_of_mem _ hx))
    · simp only [if_neg hc, hb2]
      exact ih _ _ (fun x hx => hms x (List.mem_cons_of_mem _ hx))

/-! Score bounds and terminal behavior. -/

/-- The spec value always lies in the score range `[-1, 1]`. -/
theorem gameValueAux_bounds : ∀ (fuel : Nat) (b : Board) (ai human : Cell) (mx : Bool),
    -1 ≤ gameValueAux fuel b ai human mx ∧ gameValueAux fuel b ai human mx ≤ 1 := by
  intro fuel
  induction fuel with
  | zero => intro b ai hu mx; rw [gameValueAux]; norm_num
  | succ fuel ih =>
    intro b ai hu mx
    rw [gameValueAux]
    split_ifs with h1 h2 h3 h4
    · norm_num
    · norm_num
    · norm_num
    · cases hmax : (List.map (fun m => gameValueAux fuel (b.set m ai) ai hu false)
          (available_moves b)).max? with
      | none => norm_num
      | some v =>
        rcases List.mem_map.mp (List.max?_mem (fun a b => max_choice a b) hmax)
          with ⟨m, _, hvm⟩
        rw [Option.getD_some, ← hvm]
        exact ih (b.set m ai) ai hu false
    · cases hmin : (List.map (fun m => gameValueAux fuel (b.set m hu) ai hu true)
          (available_moves b)).min? with
      | none => norm_num
      | some v =>
        rcases List.mem_map.mp (List.min?_mem (fun a b => min_choice a b) hmin)
          with ⟨m, _, hvm⟩
        rw [Option.getD_some, ← hvm]
        exact ih (b.set m hu) ai hu true

/-- A drawn board has no winner, by definition of `is_draw`. -/
theorem is_draw_winner_none {b : Board} (h : is_draw b = true) : winner b = none := by
  unfold is_draw at h
  cases hw : winner b with
  | none => rfl
  | some c => rw [hw] at h; simp at h

/-- With distinct non-blank symbols, a board that fails all three terminal
checks has no winner at all. -/
theorem winner_none_of_nonterminal {b : Board} {ai human : Cell}
    (hai : ai ≠ Cell.empty) (hhu : human ≠ Cell.empty) (hne : ai ≠ human)
    (hw1 : winner b ≠ some ai) (hw2 : winner b ≠ some human) :
    winner b = none := by
  cases hwb : winner b with
  | none => rfl
  | some c =>
    have hcne := winner_ne_empty hwb
    rw [hwb] at hw1 hw2
    cases c <;> cases ai <;> cases human <;> simp_all

/-- Main correctness of the search: at sufficient fuel and with distinct
non-blank symbols, the minimax score is the spec game value, and on a
non-terminal board the returned move is the first legal move (in ascending
index order) whose one-move-deeper value equals that score. -/
theorem minimax_spec (ai human : Cell) (hai : ai ≠ Cell.empty)
    (hhu : human ≠ Cell.empty) (hne : ai ≠ human) :
    ∀ (fuel : Nat) (b : Board) (mx : Bool), countEmpty b + 1 ≤ fuel →
      (minimaxAux fuel b ai human mx).1 = gameValueAux fuel b ai human mx
      ∧ (winner b ≠ some ai → winner b ≠ some human → is_draw b = false →
          ∃ m, (minimaxAux fuel b ai human mx).2.1 = some m
            ∧ b.get? m = some Cell.empty
            ∧ gameValueAux (fuel - 1) (b.set m (if mx then ai else human)) ai human (!mx)
                = (minimaxAux fuel b ai human mx).1
            ∧ ∀ k, b.get? k = some Cell.empty → k < m →
                gameValueAux (fuel - 1) (b.set k (if mx then ai else human)) ai human (!mx)
                  ≠ (minimaxAux fuel b ai human mx).1) := by
  intro fuel
  induction fuel with
  | zero => intro b mx h; exact absurd h (by omega)
  | succ fuel ih =>
    intro b mx h
    by_cases hw1 : winner b = some ai
    · refine ⟨by rw [minimaxAux, gameValueAux, if_pos hw1, if_pos hw1], ?_⟩
      intro hc1 _ _; exact absurd hw1 hc1
    by_cases hw2 : winner b = some human
    · refine ⟨by rw [minimaxAux, gameValueAux, if_neg hw1, if_neg hw1,
        if_pos hw2, if_pos hw2], ?_⟩
      intro _ hc2 _; exact absurd hw2 hc2
    by_cases hd : is_draw b = true
    · refine ⟨by rw [minimaxAux, gameValueAux, if_neg hw1, if_neg hw1,
        if_neg hw2, if_neg hw2, if_pos hd, if_pos hd], ?_⟩
      intro _ _ hc3; rw [hd] at hc3; exact Bool.noConfusion hc3
    have hwnone : winner b = none := winner_none_of_nonterminal hai hhu hne hw1 hw2
    have hdf : is_draw b = false := by
      cases hdb : is_draw b with
      | false => rfl
      | true => exact absurd hdb hd
    have hnil : available_moves b ≠ [] := available_ne_nil hwnone hdf
    have hmoves : ∀ m ∈ available_moves b, b.get? m = some Cell.empty :=
      fun m hm => mem_available_moves.mp hm
    have hchildfuel : ∀ m ∈ available_moves b, ∀ c, c ≠ Cell.empty →
        countEmpty (b.set m c) + 1 ≤ fuel := by
      intro m hm c hc
      have := countEmpty_set (hmoves m hm) hc
      omega
    have hsorted := available_moves_pairwise b
    cases mx with
    | true =>
      have hfg : ∀ m ∈ available_moves b,
          (minimaxAux fuel (b.set m ai) ai human false).1
            = gameValueAux fuel (b.set m ai) ai human false :=
        fun m hm => (ih (b.set m ai) false (hchildfuel m hm ai hai)).1
      have heqg : minimaxAux (fuel + 1) b ai human true
          = ((pickMax (fun m => gameValueAux fuel (b.set m ai) ai human false)
                (available_moves b) (-10, none)).1,
             (pickMax (fun m => gameValueAux fuel (b.set m ai) ai human false)
                (available_moves b) (-10, none)).2, b) := by
        rw [minimaxAux, if_neg hw1, if_neg hw2, if_neg hd, if_pos rfl,
          foldl_eq_pickMax fuel ai human b (available_moves b) (-10) none hmoves,
          pickMax_congr _ _ (available_moves b) (-10, none) hfg]
      have hgv : gameValueAux (fuel + 1) b ai human true
          = (((available_moves b).map
              (fun m => gameValueAux fuel (b.set m ai) ai human false)).max?).getD 0 := by
        rw [gameValueAux, if_neg hw1, if_neg hw2, if_neg hd, if_pos rfl]
      have hglt : ∀ m ∈ available_moves b,
          ((-10 : Int), (none : Option Nat)).1
            < gameValueAux fuel (b.set m ai) ai human false := by
        intro m hm
        have := (gameValueAux_bounds fuel (b.set m ai) ai human false).1
        show (-10 : Int) < _
        omega
      have hmax := pickMax_max? _ (available_moves b) (-10, none) hnil hglt
      have hscore : (minimaxAux (fuel + 1) b ai human true).1
          = gameValueAux (fuel + 1) b ai human true := by
        rw [heqg, hgv, hmax, Option.getD_some]
      refine ⟨hscore, ?_⟩
      intro _ _ _
      obtain ⟨m0, hm0⟩ := List.exists_mem_of_ne_nil _ hnil
      obtain ⟨l1, mbest, l2, hsplit, hm2, hfb, hl1⟩ :=
        pickMax_found (fun m => gameValueAux fuel (b.set m ai) ai human false)
          (available_moves b) (-10, none) ⟨m0, hm0, hglt m0 hm0⟩
      have hmbmem : mbest ∈ available_moves b := by
        rw [hsplit]; exact List.mem_append_right _ (List.mem_cons_self _ _)
      refine ⟨mbest, by rw [heqg]; exact hm2, hmoves mbest hmbmem, ?_, ?_⟩
      · show gameValueAux fuel (b.set mbest ai) ai human false = _
        rw [heqg]; exact hfb
      · intro k hk hkm
        have hkmem : k ∈ available_moves b := mem_available_moves.mpr hk
        rw [hsplit] at hkmem hsorted
        have hkl1 : k ∈ l1 := by
          rcases List.mem_append.mp hkmem with h1 | h2
          · exact h1
          · rcases List.mem_cons.mp h2 with rfl | h3
            · exact absurd hkm (lt_irrefl _)
            · have := ((List.pairwise_append.mp hsorted).2.1)
              have hlt := (List.pairwise_cons.mp this).1 k h3
              omega
        show gameValueAux fuel (b.set k ai) ai human false ≠ _
        rw [heqg]
        have := hl1 k hkl1
        rw [hfb] at this
        exact ne_of_lt this
    | false =>
      have hfg : ∀ m ∈ available_moves b,
          (minimaxAux fuel (b.set m human) ai human true).1
            = gameValueAux fuel (b.set m human) ai human true :=
        fun m hm => (ih (b.set m human) true (hchildfuel m hm human hhu)).1
      have heqg : minimaxAux (fuel + 1) b ai human false
          = ((pickMin (fun m => gameValueAux fuel (b.set m human) ai human true)
                (available_moves b) (10, none)).1,
             (pickMin (fun m => gameValueAux fuel (b.set m human) ai human true)
                (available_moves b) (10, none)).2, b) := by
        rw [minimaxAux, if_neg hw1, if_neg hw2, if_neg hd]
        rw [if_neg (by simp : ¬((false : Bool) = true)),
          foldl_eq_pickMin fuel ai human b (available_moves b) 10 none hmoves,
          pickMin_congr _ _ (available_moves b) (10, none) hfg]
      have hgv : gameValueAux (fuel + 1) b ai human false
          = (((available_moves b).map
              (fun m => gameValueAux fuel (b.set m human) ai human true)).min?).getD 0 := by
        rw [gameValueAux, if_neg hw1, if_neg hw2, if_neg hd]
        rw [if_neg (by simp : ¬((false : Bool) = true))]
      have hglt : ∀ m ∈ available_moves b,
          gameValueAux fuel (b.set m human) ai human true
            < (((10 : Int)), (none : Option Nat)).1 := by
        intro m hm
        have := (gameValueAux_bounds fuel (b.set m human) ai human true).2
        show _ < (10 : Int)
        omega
      have hmin := pickMin_min? _ (available_moves b) (10, none) hnil hglt
      have hscore : (minimaxAux (fuel + 1) b ai human false).1
          = gameValueAux (fuel + 1) b ai human false := by
        rw [heqg, hgv, hmin, Option.getD_some]
      refine ⟨hscore, ?_⟩
      intro _ _ _
      obtain ⟨m0, hm0⟩ := List.exists_mem_of_ne_nil _ hnil
      obtain ⟨l1, mbest, l2, hsplit, hm2, hfb, hl1⟩ :=
        pickMin_found (fun m => gameValueAux fuel (b.set m human) ai human true)
          (available_moves b) (10, none) ⟨m0, hm0, hglt m0 hm0⟩
      have hmbmem : mbest ∈ available_moves b := by
        rw [hsplit]; exact List.mem_append_right _ (List.mem_cons_self _ _)
      refine ⟨mbest, by rw [heqg]; exact hm2, hmoves mbest hmbmem, ?_, ?_⟩
      · show gameValueAux fuel (b.set mbest human) ai human true = _
        rw [heqg]; exact hfb
      · intro k hk hkm
        have hkmem : k ∈ available_moves b := mem_available_moves.mpr hk
        rw [hsplit] at hkmem hsorted
        have hkl1 : k ∈ l1 := by
          rcases List.mem_append.mp hkmem with h1 | h2
          · exact h1
          · rcases List.mem_cons.mp h2 with rfl | h3
            · exact absurd hkm (lt_irrefl _)
            · have := ((List.pairwise_append.mp hsorted).2.1)
              have hlt := (List.pairwise_cons.mp this).1 k h3
              omega
        show gameValueAux fuel (b.set k human) ai human true ≠ _
        rw [heqg]
        have := hl1 k hkl1
        rw [hfb] at this
        exact ne_of_gt this

/-- Fuel irrelevance for the spec value: any fuel of at least one more than
the number of empty cells computes `gameValue`. -/
theorem gameValueAux_fuel_irrel (ai human : Cell) (hai : ai ≠ Cell.empty)
    (hhu : human ≠ Cell.empty) :
    ∀ (fuel : Nat) (b : Board) (mx : Bool), countEmpty b + 1 ≤ fuel →
      gameValueAux fuel b ai human mx = gameValue b ai human mx := by
  intro fuel
  induction fuel with
  | zero => intro b mx h; exact absurd h (by omega)
  | succ fuel ih =>
    intro b mx h
    unfold gameValue
    by_cases hw1 : winner b = some ai
    · rw [gameValueAux, if_pos hw1, gameValueAux, if_pos hw1]
    by_cases hw2 : winner b = some human
    · rw [gameValueAux, if_neg hw1, if_pos hw2, gameValueAux, if_neg hw1, if_pos hw2]
    by_cases hd : is_draw b = true
    · rw [gameValueAux, if_neg hw1, if_neg hw2, if_pos hd,
        gameValueAux, if_neg hw1, if_neg hw2, if_pos hd]
    have hchild : ∀ m ∈ available_moves b, ∀ (c : Cell), c ≠ Cell.empty →
        countEmpty (b.set m c) + 1 = countEmpty b :=
      fun m hm c hc => countEmpty_set (mem_available_moves.mp hm) hc
    cases mx with
    | true =>
      rw [gameValueAux, if_neg hw1, if_neg hw2, if_neg hd, if_pos rfl,
        gameValueAux, if_neg hw1, if_neg hw2, if_neg hd, if_pos rfl]
      have hmapeq : (available_moves b).map
            (fun m => gameValueAux fuel (b.set m ai) ai human false)
          = (available_moves b).map
            (fun m => gameValueAux (countEmpty b) (b.set m ai) ai human false) := by
        refine List.map_congr_left ?_
        intro m hm
        have hce := hchild m hm ai hai
        rw [ih (b.set m ai) false (by omega)]
        unfold gameValue
        rw [← hce]
      rw [hmapeq]
    | false =>
      rw [gameValueAux, if_neg hw1, if_neg hw2, if_neg hd,
        if_neg (by simp : ¬((false : Bool) = true)),
        gameValueAux, if_neg hw1, if_neg hw2, if_neg hd,
        if_neg (by simp : ¬((false : Bool) = true))]
      have hmapeq : (available_moves b).map
            (fun m => gameValueAux fuel (b.set m human) ai human true)
          = (available_moves b).map
            (fun m => gameValueAux (countEmpty b) (b.set m human) ai human true) := by
        refine List.map_congr_left ?_
        intro m hm
        have hce := hchild m hm human hhu
        rw [ih (b.set m human) true (by omega)]
        unfold gameValue
        rw [← hce]
      rw [hmapeq]

/-- Fuel irrelevance for the search itself: `countEmpty board + 1` plies of
fuel compute the fixed point of the recursion, which is the termination
argument of the source `minimax` — every recursive call strictly decreases
the number of empty cells. -/
theorem minimaxAux_fuel_irrel (ai human : Cell) (hai : ai ≠ Cell.empty)
    (hhu : human ≠ Cell.empty) :
    ∀ (fuel : Nat) (b : Board) (mx : Bool), countEmpty b + 1 ≤ fuel →
      minimaxAux fuel b ai human mx = minimaxAux (countEmpty b + 1) b ai human mx := by
  intro fuel
  induction fuel with
  | zero => intro b mx h; exact absurd h (by omega)
  | succ fuel ih =>
    intro b mx h
    by_cases hw1 : winner b = some ai
    · rw [minimaxAux, if_pos hw1, minimaxAux, if_pos hw1]
    by_cases hw2 : winner b = some human
    · rw [minimaxAux, if_neg hw1, if_pos hw2, minimaxAux, if_neg hw1, if_pos hw2]
    by_cases hd : is_draw b = true
    · rw [minimaxAux, if_neg hw1, if_neg hw2, if_pos hd,
        minimaxAux, if_neg hw1, if_neg hw2, if_pos hd]
    have hmoves : ∀ m ∈ available_moves b, b.get? m = some Cell.empty :=
      fun m hm => mem_available_moves.mp hm
    have hchild : ∀ m ∈ available_moves b, ∀ (c : Cell), c ≠ Cell.empty →
        countEmpty (b.set m c) + 1 = countEmpty b :=
      fun m hm c hc => countEmpty_set (hmoves m hm) hc
    cases mx with
    | true =>
      rw [minimaxAux, if_neg hw1, if_neg hw2, if_neg hd, if_pos rfl,
        minimaxAux, if_neg hw1, if_neg hw2, if_neg hd, if_pos rfl,
        foldl_eq_pickMax fuel ai human b (available_moves b) (-10) none hmoves,
        foldl_eq_pickMax (countEmpty b) ai human b (available_moves b) (-10) none hmoves,
        pickMax_congr (fun m => (minimaxAux fuel (b.set m ai) ai human false).1)
          (fun m => (minimaxAux (countEmpty b) (b.set m ai) ai human false).1)
          (available_moves b) (-10, none) ?_]
      intro m hm
      have hce := hchild m hm ai hai
      show (minimaxAux fuel (b.set m ai) ai human false).1 = _
      rw [ih (b.set m ai) false (by omega), ← hce]
    | false =>
      rw [minimaxAux, if_neg hw1, if_neg hw2, if_neg hd,
        if_neg (by simp : ¬((false : Bool) = true)),
        minimaxAux, if_neg hw1, if_neg hw2, if_neg hd,
        if_neg (by simp : ¬((false : Bool) = true)),
        foldl_eq_pickMin fuel ai human b (available_moves b) 10 none hmoves,
        foldl_eq_pickMin (countEmpty b) ai human b (available_moves b) 10 none hmoves,
        pickMin_congr (fun m => (minimaxAux fuel (b.set m human) ai human true).1)
          (fun m => (minimaxAux (countEmpty b) (b.set m human) ai human true).1)
          (available_moves b) (10, none) ?_]
      intro m hm
      have hce := hchild m hm human hhu
      show (minimaxAux fuel (b.set m human) ai human true).1 = _
      rw [ih (b.set m human) true (by omega), ← hce]

/-- Soundness of the draw-certificate checker: a successful check bounds the
spec value from below by zero. -/
theorem canDrawAux_sound : ∀ (fuel : Nat) (b : Board) (mx : Bool),
    canDrawAux fuel b mx = true → 0 ≤ gameValueAux fuel b Cell.X Cell.O mx := by
  intro fuel
  induction fuel with
  | zero => intro b mx h; simp [canDrawAux] at h
  | succ fuel ih =>
    intro b mx h
    rw [canDrawAux] at h
    rw [gameValueAux]
    by_cases hw1 : winner b = some Cell.X
    · rw [if_pos hw1]; norm_num
    rw [if_neg hw1] at h ⊢
    by_cases hw2 : winner b = some Cell.O
    · rw [if_pos hw2] at h; exact Bool.noConfusion h
    rw [if_neg hw2] at h ⊢
    by_cases hd : is_draw b = true
    · rw [if_pos hd]
    rw [if_neg hd] at h ⊢
    cases mx with
    | true =>
      rw [if_pos rfl] at h ⊢
      rcases List.any_eq_true.mp h with ⟨m, hm, hcd⟩
      have hv := ih (b.set m Cell.X) false hcd
      cases hmax : ((available_moves b).map
          (fun m => gameValueAux fuel (b.set m Cell.X) Cell.X Cell.O false)).max? with
      | none =>
        rw [List.max?_eq_none_iff] at hmax
        rw [List.map_eq_nil] at hmax
        exact absurd (hmax ▸ hm) (List.not_mem_nil m)
      | some M =>
        rw [Option.getD_some]
        have hiff := (List.max?_eq_some_iff (fun a => le_refl a)
          (fun a b => max_choice a b) (fun a b c => max_le_iff)).mp hmax
        have hle := hiff.2 _ (List.mem_map.mpr ⟨m, hm, rfl⟩)
        omega
    | false =>
      rw [if_neg (by simp : ¬((false : Bool) = true))] at h ⊢
      have hall := List.all_eq_true.mp h
      cases hmin : ((available_moves b).map
          (fun m => gameValueAux fuel (b.set m Cell.O) Cell.X Cell.O true)).min? with
      | none => rw [Option.getD_none]
      | some M =>
        rw [Option.getD_some]
        rcases List.mem_map.mp (List.min?_mem (fun a b => min_choice a b) hmin)
          with ⟨m, hm, hvm⟩
        have hv := ih (b.set m Cell.O) true (hall m hm)
        omega

/-- A board the human symbol has won is worth `-1`, for either side to move. -/
theorem gameValue_winner_human {b : Board} {ai human : Cell} (hne : ai ≠ human)
    (hw : winner b = some human) (mx : Bool) : gameValue b ai human mx = -1 := by
  have hwa : winner b ≠ some ai := by
    rw [hw]; intro hc; exact hne (Option.some.inj hc).symm
  unfold gameValue
  rw [gameValueAux, if_neg hwa, if_pos hw]

/-- At a non-terminal minimizing node, every legal reply is worth at least the
node value: the minimizing side cannot push the value below the minimum. -/
theorem gameValue_min_child (ai human : Cell) (hhu : human ≠ Cell.empty)
    {b : Board} {m : Nat}
    (hw1 : winner b ≠ some ai) (hw2 : winner b ≠ some human) (hd : is_draw b = false)
    (hm : b.get? m = some Cell.empty) :
    gameValue b ai human false ≤ gameValue (b.set m human) ai human true := by
  have hmm : m ∈ available_moves b := mem_available_moves.mpr hm
  have hce : countEmpty (b.set m human) + 1 = countEmpty b := countEmpty_set hm hhu
  conv_lhs => rw [gameValue]
  rw [gameValueAux, if_neg hw1, if_neg hw2, if_neg (by rw [hd]; simp),
    if_neg (by simp : ¬((false : Bool) = true))]
  cases hmin : ((available_moves b).map
      (fun k => gameValueAux (countEmpty b) (b.set k human) ai human true)).min? with
  | none =>
    rw [List.min?_eq_none_iff] at hmin
    rw [List.map_eq_nil] at hmin
    exact absurd (hmin ▸ hmm) (List.not_mem_nil m)
  | some M =>
    rw [Option.getD_some]
    have hiff := (List.min?_eq_some_iff (fun a => le_refl a)
      (fun a b => min_choice a b) (fun a b c => le_min_iff)).mp hmin
    have hle := hiff.2 _ (List.mem_map.mpr ⟨m, hmm, rfl⟩)
    calc M ≤ gameValueAux (countEmpty b) (b.set m human) ai human true := hle
      _ = gameValue (b.set m human) ai human true := by
        rw [gameValue, hce]

/-- The in-progress classification is exactly: no winner and not a draw. -/
theorem outcome_inProgress_iff {b : Board} :
    outcome b = Outcome.inProgress ↔ winner b = none ∧ is_draw b = false := by
  unfold outcome
  cases hw : winner b with
  | some s => simp
  | none => cases hd : is_draw b <;> simp

/-- The winner classification is exactly the `winner` function reporting. -/
theorem outcome_winner_iff {b : Board} {s : Cell} :
    outcome b = Outcome.winner s ↔ winner b = some s := by
  unfold outcome
  cases hw : winner b with
  | some c => simp
  | none => cases hd : is_draw b <;> simp

/-- The score returned by `minimax` is the game-theoretic value. -/
theorem minimax_value (b : Board) (ai human : Cell) (mx : Bool)
    (hai : ai ≠ Cell.empty) (hhu : human ≠ Cell.empty) (hne : ai ≠ human) :
    (minimax b ai human mx).1 = gameValue b ai human mx :=
  (minimax_spec ai human hai hhu hne (countEmpty b + 1) b mx (le_refl _)).1

/-- On a non-terminal board, `minimax` returns the first legal move whose
successor value equals the returned score, which is the position value. -/
theorem minimax_move_nonterminal (b : Board) (ai human : Cell) (mx : Bool)
    (hai : ai ≠ Cell.empty) (hhu : human ≠ Cell.empty) (hne : ai ≠ human)
    (hw1 : winner b ≠ some ai) (hw2 : winner b ≠ some human) (hd : is_draw b = false) :
    ∃ m, (minimax b ai human mx).2 = some m
      ∧ b.get? m = some Cell.empty
      ∧ gameValue (b.set m (if mx then ai else human)) ai human (!mx)
          = gameValue b ai human mx
      ∧ ∀ k, b.get? k = some Cell.empty → k < m →
          gameValue (b.set k (if mx then ai else human)) ai human (!mx)
            ≠ gameValue b ai human mx := by
  have hsymb : (if mx then ai else human) ≠ Cell.empty := by
    cases mx
    · exact hhu
    · exact hai
  obtain ⟨m, hm1, hm2, hm3, hm4⟩ :=
    (minimax_spec ai human hai hhu hne (countEmpty b + 1) b mx (le_refl _)).2 hw1 hw2 hd
  have hsc : (minimaxAux (countEmpty b + 1) b ai human mx).1 = gameValue b ai human mx :=
    minimax_value b ai human mx hai hhu hne
  refine ⟨m, hm1, hm2, ?_, ?_⟩
  · have hce : countEmpty (b.set m (if mx then ai else human)) + 1 = countEmpty b :=
      countEmpty_set hm2 hsymb
    have := hm3
    rw [Nat.add_sub_cancel] at this
    rw [← hsc]
    rw [gameValue, hce]
    exact this
  · intro k hk hkm
    have hce : countEmpty (b.set k (if mx then ai else human)) + 1 = countEmpty b :=
      countEmpty_set hk hsymb
    have := hm4 k hk hkm
    rw [Nat.add_sub_cancel] at this
    rw [← hsc]
    rw [gameValue, hce]
    exact this

/-- Terminal boards short-circuit `minimax`: the leaf score and no move. -/
theorem minimax_terminal (b : Board) (ai human : Cell) (mx : Bool) (hne : ai ≠ human) :
    (winner b = some ai → minimax b ai human mx = (1, none))
    ∧ (winner b = some human → minimax b ai human mx = (-1, none))
    ∧ (is_draw b = true → minimax b ai human mx = (0, none)) := by
  refine ⟨?_, ?_, ?_⟩
  · intro hw
    unfold minimax
    rw [minimaxAux, if_pos hw]
  · intro hw
    have hwa : winner b ≠ some ai := by
      rw [hw]; intro hc; exact hne (Option.some.inj hc).symm
    unfold minimax
    rw [minimaxAux, if_neg hwa, if_pos hw]
  · intro hd
    have hw := is_draw_winner_none hd
    have h1 : winner b ≠ some ai := by rw [hw]; simp
    have h2 : winner b ≠ some human := by rw [hw]; simp
    unfold minimax
    rw [minimaxAux, if_neg h1, if_neg h2, if_pos hd]

/-! Claim theorems. -/

/-- C7: after any call frame of the search returns, the board equals its state
at the moment of the call — every tentative apply inside the frame is matched
by an undo before the frame returns, at every fuel, board, symbol assignment
and turn flag. -/
theorem minimax_preserves_board (fuel : Nat) (b : Board) (ai human : Cell) (mx : Bool) :
    (minimaxAux fuel b ai human mx).2.2 = b :=
  minimaxAux_board fuel b ai human mx

/-- C10: the search terminates — fuel `countEmpty board + 1` computes the
fixed point of the recursion (any larger fuel gives the same result), because
each recursive call is made on a board with strictly fewer empty cells. -/
theorem minimax_terminates (b : Board) (ai human : Cell) (mx : Bool) (fuel : Nat)
    (hai : ai ≠ Cell.empty) (hhu : human ≠ Cell.empty)
    (hfuel : countEmpty b + 1 ≤ fuel) :
    minimaxAux fuel b ai human mx = minimaxAux (countEmpty b + 1) b ai human mx
    ∧ ∀ (m : Nat) (c : Cell), b.get? m = some Cell.empty → c ≠ Cell.empty →
        countEmpty (b.set m c) < countEmpty b := by
  refine ⟨minimaxAux_fuel_irrel ai human hai hhu fuel b mx hfuel, ?_⟩
  intro m c hm hc
  have := countEmpty_set hm hc
  omega

/-- Witness for C10 at a concrete input. -/
theorem minimax_terminates_witness :
    (Cell.X ≠ Cell.empty) ∧ (Cell.O ≠ Cell.empty)
    ∧ countEmpty [Cell.X, Cell.O, Cell.X, Cell.O, Cell.X, Cell.O, Cell.X, Cell.O,
        Cell.empty] + 1 ≤ 3
    ∧ (minimaxAux 3 [Cell.X, Cell.O, Cell.X, Cell.O, Cell.X, Cell.O, Cell.X, Cell.O,
          Cell.empty] Cell.X Cell.O true
        = minimaxAux (countEmpty [Cell.X, Cell.O, Cell.X, Cell.O, Cell.X, Cell.O,
            Cell.X, Cell.O, Cell.empty] + 1) [Cell.X, Cell.O, Cell.X, Cell.O, Cell.X,
            Cell.O, Cell.X, Cell.O, Cell.empty] Cell.X Cell.O true
        ∧ ∀ (m : Nat) (c : Cell),
            [Cell.X, Cell.O, Cell.X, Cell.O, Cell.X, Cell.O, Cell.X, Cell.O,
              Cell.empty].get? m = some Cell.empty → c ≠ Cell.empty →
            countEmpty ([Cell.X, Cell.O, Cell.X, Cell.O, Cell.X, Cell.O, Cell.X,
              Cell.O, Cell.empty].set m c)
              < countEmpty [Cell.X, Cell.O, Cell.X, Cell.O, Cell.X, Cell.O, Cell.X,
                  Cell.O, Cell.empty]) :=
  ⟨by decide, by decide, by decide,
   minimax_terminates _ Cell.X Cell.O true 3 (by decide) (by decide) (by decide)⟩

/-- C6: applying a symbol to an empty cell and then undoing the same move
restores the board exactly. -/
theorem apply_undo_restores (b : Board) (m : Nat) (s : Cell)
    (hm : b.get? m = some Cell.empty) :
    (apply b m s).bind (fun b2 => undo b2 m) = some b := by
  rcases List.get?_eq_some.mp hm with ⟨hlt, _⟩
  have h2 : m < (b.set m s).length := by rw [List.length_set]; exact hlt
  unfold undo apply
  rw [if_pos hlt]
  show (if m < (b.set m s).length then some ((b.set m s).set m Cell.empty) else none)
      = some b
  rw [if_pos h2, List.set_set, set_of_get? b m Cell.empty hm]

/-- Witness for C6 at a concrete input. -/
theorem apply_undo_restores_witness :
    [Cell.X, Cell.empty, Cell.O, Cell.empty, Cell.empty, Cell.empty, Cell.empty,
      Cell.empty, Cell.empty].get? 1 = some Cell.empty
    ∧ (apply [Cell.X, Cell.empty, Cell.O, Cell.empty, Cell.empty, Cell.empty,
        Cell.empty, Cell.empty, Cell.empty] 1 Cell.O).bind (fun b2 => undo b2 1)
      = some [Cell.X, Cell.empty, Cell.O, Cell.empty, Cell.empty, Cell.empty,
        Cell.empty, Cell.empty, Cell.empty] :=
  ⟨by decide, apply_undo_restores _ 1 Cell.O (by decide)⟩

/-- C8 counterexample: the claim says `apply` fails when the target cell is
already occupied, but the list assignment of the source succeeds on an
occupied in-range cell and overwrites it. -/
theorem apply_occupied_succeeds :
    cellAt [Cell.X, Cell.empty, Cell.empty, Cell.empty, Cell.empty, Cell.empty,
      Cell.empty, Cell.empty, Cell.empty] 0 = Cell.X
    ∧ Cell.X ≠ Cell.empty
    ∧ apply [Cell.X, Cell.empty, Cell.empty, Cell.empty, Cell.empty, Cell.empty,
        Cell.empty, Cell.empty, Cell.empty] 0 Cell.O
      = some [Cell.O, Cell.empty, Cell.empty, Cell.empty, Cell.empty, Cell.empty,
        Cell.empty, Cell.empty, Cell.empty] := by
  decide

/-- C8 amended: on a board of 9 cells, `apply` fails exactly when the index is
out of the range 0–8 — occupancy is not checked; a legal (in-range) apply sets
the indexed cell to the symbol, overwriting any occupant, and changes no other
cell. -/
theorem apply_range_spec (b : Board) (m : Nat) (s : Cell) (hlen : b.length = 9) :
    (apply b m s = none ↔ 9 ≤ m)
    ∧ (∀ b2, apply b m s = some b2 →
        b2.get? m = some s ∧ ∀ j, j ≠ m → b2.get? j = b.get? j) := by
  constructor
  · unfold apply
    rw [hlen]
    by_cases h : m < 9
    · rw [if_pos h]
      simp only [reduceCtorEq, false_iff]
      omega
    · rw [if_neg h]
      simp only [true_iff]
      omega
  · intro b2 hb2
    unfold apply at hb2
    split_ifs at hb2 with h
    · have hb2e : b2 = b.set m s := (Option.some.inj hb2).symm
      subst hb2e
      refine ⟨?_, ?_⟩
      · have hne2 : b.get? m ≠ none := by
          intro hc; rw [List.get?_eq_none] at hc; omega
        rw [List.get?_set_eq]
        cases hg : b.get? m with
        | none => exact absurd hg hne2
        | some c => rfl
      · intro j hj
        exact List.get?_set_ne s b (Ne.symm hj)

/-- Witness for the amended C8 at a concrete input. -/
theorem apply_range_spec_witness :
    ([Cell.X, Cell.O, Cell.empty, Cell.empty, Cell.empty, Cell.empty, Cell.empty,
        Cell.empty, Cell.empty] : Board).length = 9
    ∧ ((apply [Cell.X, Cell.O, Cell.empty, Cell.empty, Cell.empty, Cell.empty,
          Cell.empty, Cell.empty, Cell.empty] 2 Cell.X = none ↔ 9 ≤ 2)
      ∧ (∀ b2, apply [Cell.X, Cell.O, Cell.empty, Cell.empty, Cell.empty, Cell.empty,
            Cell.empty, Cell.empty, Cell.empty] 2 Cell.X = some b2 →
          b2.get? 2 = some Cell.X
            ∧ ∀ j, j ≠ 2 → b2.get? j
                = [Cell.X, Cell.O, Cell.empty, Cell.empty, Cell.empty, Cell.empty,
                    Cell.empty, Cell.empty, Cell.empty].get? j)) :=
  ⟨by decide, apply_range_spec _ 2 Cell.X (by decide)⟩

/-- C9: `get_ai_move` forwards the minimax move; when minimax returns no move
it falls back to the lowest-indexed legal move, and reports failure (the
raising `moves[0]`, embedded as `none`) exactly when the board has no legal
move at all. -/
theorem get_ai_move_spec (b : Board) (ai human : Cell) :
    (∀ m, (minimax b ai human true).2 = some m → get_ai_move b ai human = some m)
    ∧ ((minimax b ai human true).2 = none →
        ((∀ k, b.get? k ≠ some Cell.empty) → get_ai_move b ai human = none)
        ∧ (∀ i, b.get? i = some Cell.empty →
            ∃ m, get_ai_move b ai human = some m
              ∧ b.get? m = some Cell.empty
              ∧ ∀ k, k < m → b.get? k ≠ some Cell.empty)) := by
  constructor
  · intro m hm
    unfold get_ai_move
    rw [hm]
  · intro hnone
    have hfall : get_ai_move b ai human = (available_moves b).head? := by
      unfold get_ai_move
      rw [hnone]
    constructor
    · intro hempty
      have hnil : available_moves b = [] := by
        rw [List.eq_nil_iff_forall_not_mem]
        intro m hmem
        exact hempty m (mem_available_moves.mp hmem)
      rw [hfall, hnil]
      rfl
    · intro i hi
      have hmem : i ∈ available_moves b := mem_available_moves.mpr hi
      have hnil : available_moves b ≠ [] := List.ne_nil_of_mem hmem
      obtain ⟨m0, tl, hcons⟩ := List.exists_cons_of_ne_nil hnil
      have hm0mem : m0 ∈ available_moves b := by rw [hcons]; exact List.mem_cons_self _ _
      refine ⟨m0, ?_, mem_available_moves.mp hm0mem, ?_⟩
      · rw [hfall, hcons]
        rfl
      · intro k hk hkE
        have hkmem : k ∈ available_moves b := mem_available_moves.mpr hkE
        have hsorted := available_moves_pairwise b
        rw [hcons] at hkmem hsorted
        rcases List.mem_cons.mp hkmem with rfl | htl
        · exact absurd hk (lt_irrefl _)
        · have := (List.pairwise_cons.mp hsorted).1 k htl
          omega

/-- Witness for C9 at a concrete input. -/
theorem get_ai_move_spec_witness :
    (minimax [Cell.X, Cell.O, Cell.X, Cell.O, Cell.X, Cell.O, Cell.empty, Cell.empty,
        Cell.empty] Cell.X Cell.O true).2 = some 6
    ∧ get_ai_move [Cell.X, Cell.O, Cell.X, Cell.O, Cell.X, Cell.O, Cell.empty,
        Cell.empty, Cell.empty] Cell.X Cell.O = some 6 :=
  ⟨by decide,
   (get_ai_move_spec _ Cell.X Cell.O).1 6 (by decide)⟩

/-- C5: on the board with X at 0,1 and O at 3,4 and X to move, the engine takes
the immediate win at index 2, with score `+1`. -/
theorem ai_wins_scenario1 :
    get_ai_move [Cell.X, Cell.X, Cell.empty, Cell.O, Cell.O, Cell.empty, Cell.empty,
        Cell.empty, Cell.empty] Cell.X Cell.O = some 2
    ∧ (minimax [Cell.X, Cell.X, Cell.empty, Cell.O, Cell.O, Cell.empty, Cell.empty,
        Cell.empty, Cell.empty] Cell.X Cell.O true).1 = 1 := by
  constructor
  · decide
  · decide

/-- C4 counterexample: with two completed lines of different symbols, `winner`
reports the symbol of the earlier line in the fixed order, so a completed
triple with arbitrary symbols elsewhere need not be the reported winner. -/
theorem winner_first_line_counterexample :
    (3, 4, 5) ∈ win_lines
    ∧ cellAt [Cell.O, Cell.O, Cell.O, Cell.X, Cell.X, Cell.X, Cell.empty, Cell.empty,
        Cell.empty] 3 = Cell.X
    ∧ cellAt [Cell.O, Cell.O, Cell.O, Cell.X, Cell.X, Cell.X, Cell.empty, Cell.empty,
        Cell.empty] 4 = Cell.X
    ∧ cellAt [Cell.O, Cell.O, Cell.O, Cell.X, Cell.X, Cell.X, Cell.empty, Cell.empty,
        Cell.empty] 5 = Cell.X
    ∧ Cell.X ≠ Cell.empty
    ∧ winner [Cell.O, Cell.O, Cell.O, Cell.X, Cell.X, Cell.X, Cell.empty, Cell.empty,
        Cell.empty] = some Cell.O
    ∧ winner [Cell.O, Cell.O, Cell.O, Cell.X, Cell.X, Cell.X, Cell.empty, Cell.empty,
        Cell.empty] ≠ some Cell.X := by
  decide

/-- C4 amended: a completed triple is the reported winner whenever every
completed line carries that same symbol (in particular when it is the only
completed line); lines are checked in the fixed order with the first match
returned.  A full board with no completed triple is classified a draw, and a
board with an empty cell and no winner is classified in progress. -/
theorem winner_classification (b : Board) (hlen : b.length = 9) :
    (∀ t ∈ win_lines, lineWins b t = true →
      (∀ u ∈ win_lines, lineWins b u = true → cellAt b u.1 = cellAt b t.1) →
      winner b = some (cellAt b t.1))
    ∧ ((∀ t ∈ win_lines, lineWins b t = false) →
        b.all (fun c => c != Cell.empty) = true → outcome b = Outcome.draw)
    ∧ (winner b = none → (∃ i, b.get? i = some Cell.empty) →
        outcome b = Outcome.inProgress) := by
  refine ⟨?_, ?_, ?_⟩
  · intro t ht hw hdom
    have hsome : (win_lines.find? (lineWins b)).isSome :=
      List.find?_isSome.mpr ⟨t, ht, hw⟩
    obtain ⟨u, hu⟩ := Option.isSome_iff_exists.mp hsome
    have hum := List.mem_of_find?_eq_some hu
    have huw := List.find?_some hu
    unfold winner
    rw [hu]
    show some (cellAt b u.1) = some (cellAt b t.1)
    exact congrArg some (hdom u hum huw)
  · intro hnone hall
    have hnof : ∀ x ∈ win_lines, ¬ lineWins b x = true := by
      intro x hx hc
      rw [hnone x hx] at hc
      exact Bool.noConfusion hc
    have hw : winner b = none := by
      unfold winner
      rw [List.find?_eq_none.mpr hnof]
      rfl
    have hd : is_draw b = true := by
      unfold is_draw
      rw [hw, hall]
      rfl
    unfold outcome
    rw [hw]
    simp [hd]
  · intro hw hex
    rcases hex with ⟨i, hi⟩
    have hcell : Cell.empty ∈ b := List.mem_iff_get?.mpr ⟨i, hi⟩
    have hall : b.all (fun c => c != Cell.empty) = false := by
      cases hab : b.all (fun c => c != Cell.empty) with
      | false => rfl
      | true =>
        have := List.all_eq_true.mp hab Cell.empty hcell
        simp at this
    have hd : is_draw b = false := by
      unfold is_draw
      rw [hw, hall]
      rfl
    unfold outcome
    rw [hw]
    simp [hd]

/-- Witness for the amended C4 at concrete inputs. -/
theorem winner_classification_witness :
    ([Cell.X, Cell.X, Cell.X, Cell.O, Cell.O, Cell.empty, Cell.empty, Cell.empty,
        Cell.empty] : Board).length = 9
    ∧ ((∀ t ∈ win_lines,
          lineWins [Cell.X, Cell.X, Cell.X, Cell.O, Cell.O, Cell.empty, Cell.empty,
            Cell.empty, Cell.empty] t = true →
          (∀ u ∈ win_lines,
            lineWins [Cell.X, Cell.X, Cell.X, Cell.O, Cell.O, Cell.empty, Cell.empty,
              Cell.empty, Cell.empty] u = true →
            cellAt [Cell.X, Cell.X, Cell.X, Cell.O, Cell.O, Cell.empty, Cell.empty,
              Cell.empty, Cell.empty] u.1
              = cellAt [Cell.X, Cell.X, Cell.X, Cell.O, Cell.O, Cell.empty, Cell.empty,
                  Cell.empty, Cell.empty] t.1) →
          winner [Cell.X, Cell.X, Cell.X, Cell.O, Cell.O, Cell.empty, Cell.empty,
              Cell.empty, Cell.empty]
            = some (cellAt [Cell.X, Cell.X, Cell.X, Cell.O, Cell.O, Cell.empty,
                Cell.empty, Cell.empty, Cell.empty] t.1))
      ∧ ((∀ t ∈ win_lines,
            lineWins [Cell.X, Cell.X, Cell.X, Cell.O, Cell.O, Cell.empty, Cell.empty,
              Cell.empty, Cell.empty] t = false) →
          ([Cell.X, Cell.X, Cell.X, Cell.O, Cell.O, Cell.empty, Cell.empty, Cell.empty,
              Cell.empty] : Board).all (fun c => c != Cell.empty) = true →
          outcome [Cell.X, Cell.X, Cell.X, Cell.O, Cell.O, Cell.empty, Cell.empty,
              Cell.empty, Cell.empty] = Outcome.draw)
      ∧ (winner [Cell.X, Cell.X, Cell.X, Cell.O, Cell.O, Cell.empty, Cell.empty,
            Cell.empty, Cell.empty] = none →
          (∃ i, ([Cell.X, Cell.X, Cell.X, Cell.O, Cell.O, Cell.empty, Cell.empty,
              Cell.empty, Cell.empty] : Board).get? i = some Cell.empty) →
          outcome [Cell.X, Cell.X, Cell.X, Cell.O, Cell.O, Cell.empty, Cell.empty,
              Cell.empty, Cell.empty] = Outcome.inProgress)) :=
  ⟨by decide, winner_classification _ (by decide)⟩

/-- C2: the minimax score is the game-theoretic value of the position, the
returned move (when present) is legal and preserves that value, and terminal
boards return the leaf score with no move. -/
theorem minimax_computes_game_value (b : Board) (ai human : Cell) (mx : Bool)
    (hai : ai ≠ Cell.empty) (hhu : human ≠ Cell.empty) (hne : ai ≠ human) :
    (minimax b ai human mx).1 = gameValue b ai human mx
    ∧ (∀ m, (minimax b ai human mx).2 = some m →
        b.get? m = some Cell.empty
        ∧ gameValue (b.set m (if mx then ai else human)) ai human (!mx)
            = (minimax b ai human mx).1)
    ∧ (winner b = some ai → minimax b ai human mx = (1, none))
    ∧ (winner b = some human → minimax b ai human mx = (-1, none))
    ∧ (is_draw b = true → minimax b ai human mx = (0, none)) := by
  obtain ⟨ht1, ht2, ht3⟩ := minimax_terminal b ai human mx hne
  refine ⟨minimax_value b ai human mx hai hhu hne, ?_, ht1, ht2, ht3⟩
  intro m hm
  by_cases hw1 : winner b = some ai
  · rw [ht1 hw1] at hm; simp at hm
  by_cases hw2 : winner b = some human
  · rw [ht2 hw2] at hm; simp at hm
  by_cases hd : is_draw b = true
  · rw [ht3 hd] at hm; simp at hm
  have hdf : is_draw b = false := by
    cases hdb : is_draw b with
    | false => rfl
    | true => exact absurd hdb hd
  obtain ⟨m2, hm2, hleg, hval, _⟩ :=
    minimax_move_nonterminal b ai human mx hai hhu hne hw1 hw2 hdf
  rw [hm2] at hm
  have hmeq : m2 = m := Option.some.inj hm
  subst hmeq
  exact ⟨hleg, by rw [hval, minimax_value b ai human mx hai hhu hne]⟩

/-- Witness for C2 at a concrete input. -/
theorem minimax_computes_game_value_witness :
    (Cell.X ≠ Cell.empty) ∧ (Cell.O ≠ Cell.empty) ∧ (Cell.X ≠ Cell.O)
    ∧ ((minimax [Cell.X, Cell.O, Cell.X, Cell.O, Cell.O, Cell.X, Cell.empty, Cell.X,
          Cell.empty] Cell.X Cell.O true).1
        = gameValue [Cell.X, Cell.O, Cell.X, Cell.O, Cell.O, Cell.X, Cell.empty,
            Cell.X, Cell.empty] Cell.X Cell.O true
      ∧ (∀ m, (minimax [Cell.X, Cell.O, Cell.X, Cell.O, Cell.O, Cell.X, Cell.empty,
            Cell.X, Cell.empty] Cell.X Cell.O true).2 = some m →
          ([Cell.X, Cell.O, Cell.X, Cell.O, Cell.O, Cell.X, Cell.empty, Cell.X,
              Cell.empty] : Board).get? m = some Cell.empty
          ∧ gameValue (([Cell.X, Cell.O, Cell.X, Cell.O, Cell.O, Cell.X, Cell.empty,
                Cell.X, Cell.empty] : Board).set m (if true then Cell.X else Cell.O))
              Cell.X Cell.O (!true)
            = (minimax [Cell.X, Cell.O, Cell.X, Cell.O, Cell.O, Cell.X, Cell.empty,
                Cell.X, Cell.empty] Cell.X Cell.O true).1)
      ∧ (winner [Cell.X, Cell.O, Cell.X, Cell.O, Cell.O, Cell.X, Cell.empty, Cell.X,
            Cell.empty] = some Cell.X →
          minimax [Cell.X, Cell.O, Cell.X, Cell.O, Cell.O, Cell.X, Cell.empty, Cell.X,
            Cell.empty] Cell.X Cell.O true = (1, none))
      ∧ (winner [Cell.X, Cell.O, Cell.X, Cell.O, Cell.O, Cell.X, Cell.empty, Cell.X,
            Cell.empty] = some Cell.O →
          minimax [Cell.X, Cell.O, Cell.X, Cell.O, Cell.O, Cell.X, Cell.empty, Cell.X,
            Cell.empty] Cell.X Cell.O true = (-1, none))
      ∧ (is_draw [Cell.X, Cell.O, Cell.X, Cell.O, Cell.O, Cell.X, Cell.empty, Cell.X,
            Cell.empty] = true →
          minimax [Cell.X, Cell.O, Cell.X, Cell.O, Cell.O, Cell.X, Cell.empty, Cell.X,
            Cell.empty] Cell.X Cell.O true = (0, none))) :=
  ⟨by decide, by decide, by decide,
   minimax_computes_game_value _ Cell.X Cell.O true (by decide) (by decide) (by decide)⟩

/-- C3: on a non-terminal board the returned move is the lowest-indexed legal
move achieving the optimal score — candidates are scanned in ascending index
order with a strict comparison, so every lower-indexed legal move scores
strictly off the optimum. -/
theorem minimax_first_optimal (b : Board) (ai human : Cell) (mx : Bool)
    (hai : ai ≠ Cell.empty) (hhu : human ≠ Cell.empty) (hne : ai ≠ human)
    (hw1 : winner b ≠ some ai) (hw2 : winner b ≠ some human)
    (hd : is_draw b = false) :
    ∃ m, (minimax b ai human mx).2 = some m
      ∧ b.get? m = some Cell.empty
      ∧ gameValue (b.set m (if mx then ai else human)) ai human (!mx)
          = (minimax b ai human mx).1
      ∧ ∀ k, b.get? k = some Cell.empty → k < m →
          gameValue (b.set k (if mx then ai else human)) ai human (!mx)
            ≠ (minimax b ai human mx).1 := by
  obtain ⟨m, h1, h2, h3, h4⟩ :=
    minimax_move_nonterminal b ai human mx hai hhu hne hw1 hw2 hd
  have hv := minimax_value b ai human mx hai hhu hne
  refine ⟨m, h1, h2, by rw [hv]; exact h3, ?_⟩
  intro k hk hkm
  rw [hv]
  exact h4 k hk hkm

/-- Witness for C3 at a concrete input. -/
theorem minimax_first_optimal_witness :
    (Cell.X ≠ Cell.empty) ∧ (Cell.O ≠ Cell.empty) ∧ (Cell.X ≠ Cell.O)
    ∧ winner [Cell.X, Cell.O, Cell.X, Cell.O, Cell.O, Cell.X, Cell.empty, Cell.X,
        Cell.empty] ≠ some Cell.X
    ∧ winner [Cell.X, Cell.O, Cell.X, Cell.O, Cell.O, Cell.X, Cell.empty, Cell.X,
        Cell.empty] ≠ some Cell.O
    ∧ is_draw [Cell.X, Cell.O, Cell.X, Cell.O, Cell.O, Cell.X, Cell.empty, Cell.X,
        Cell.empty] = false
    ∧ ∃ m, (minimax [Cell.X, Cell.O, Cell.X, Cell.O, Cell.O, Cell.X, Cell.empty,
          Cell.X, Cell.empty] Cell.X Cell.O true).2 = some m
        ∧ ([Cell.X, Cell.O, Cell.X, Cell.O, Cell.O, Cell.X, Cell.empty, Cell.X,
            Cell.empty] : Board).get? m = some Cell.empty
        ∧ gameValue (([Cell.X, Cell.O, Cell.X, Cell.O, Cell.O, Cell.X, Cell.empty,
              Cell.X, Cell.empty] : Board).set m (if true then Cell.X else Cell.O))
            Cell.X Cell.O (!true)
          = (minimax [Cell.X, Cell.O, Cell.X, Cell.O, Cell.O, Cell.X, Cell.empty,
              Cell.X, Cell.empty] Cell.X Cell.O true).1
        ∧ ∀ k, ([Cell.X, Cell.O, Cell.X, Cell.O, Cell.O, Cell.X, Cell.empty, Cell.X,
              Cell.empty] : Board).get? k = some Cell.empty → k < m →
            gameValue (([Cell.X, Cell.O, Cell.X, Cell.O, Cell.O, Cell.X, Cell.empty,
                Cell.X, Cell.empty] : Board).set k (if true then Cell.X else Cell.O))
              Cell.X Cell.O (!true)
              ≠ (minimax [Cell.X, Cell.O, Cell.X, Cell.O, Cell.O, Cell.X, Cell.empty,
                  Cell.X, Cell.empty] Cell.X Cell.O true).1 :=
  ⟨by decide, by decide, by decide, by decide, by decide, by decide,
   minimax_first_optimal _ Cell.X Cell.O true (by decide) (by decide) (by decide)
     (by decide) (by decide) (by decide)⟩

/-- C1: playing from the empty board with the AI as X moving first via
`get_ai_move` against an arbitrary legal adversary strategy, every reachable
state avoids a human (O) win, and the game is over after at most 9 plies —
so it terminates with an AI win or a draw, never a human win. -/
theorem ai_never_loses_from_empty (adv : Board → Nat)
    (hadv : ∀ b : Board, outcome b = Outcome.inProgress →
      b.get? (adv b) = some Cell.empty) :
    ∀ n : Nat,
      outcome ((stepGame adv)^[n] (emptyBoard, true)).1 ≠ Outcome.winner Cell.O
      ∧ (9 ≤ n →
          outcome ((stepGame adv)^[n] (emptyBoard, true)).1 ≠ Outcome.inProgress) := by
  have hX : (Cell.X : Cell) ≠ Cell.empty := by decide
  have hO : (Cell.O : Cell) ≠ Cell.empty := by decide
  have hXO : (Cell.X : Cell) ≠ Cell.O := by decide
  have hcd : canDrawAux 10 emptyBoard true = true := by decide
  have hce9 : countEmpty emptyBoard = 9 := by decide
  have hbase : 0 ≤ gameValue emptyBoard Cell.X Cell.O true := by
    have h0 := canDrawAux_sound 10 emptyBoard true hcd
    unfold gameValue
    rw [hce9]
    exact h0
  have key : ∀ n : Nat,
      0 ≤ gameValue ((stepGame adv)^[n] (emptyBoard, true)).1 Cell.X Cell.O
          ((stepGame adv)^[n] (emptyBoard, true)).2
      ∧ (outcome ((stepGame adv)^[n] (emptyBoard, true)).1 = Outcome.inProgress →
          countEmpty ((stepGame adv)^[n] (emptyBoard, true)).1 + n = 9) := by
    intro n
    induction n with
    | zero =>
      constructor
      · exact hbase
      · intro _
        show countEmpty emptyBoard + 0 = 9
        rw [hce9]
    | succ n ih =>
      obtain ⟨ihv, ihc⟩ := ih
      rw [Function.iterate_succ_apply']
      set s := (stepGame adv)^[n] (emptyBoard, true) with hsdef
      by_cases hip : outcome s.1 = Outcome.inProgress
      · obtain ⟨hwn, hdf⟩ := outcome_inProgress_iff.mp hip
        have hw1 : winner s.1 ≠ some Cell.X := by rw [hwn]; simp
        have hw2 : winner s.1 ≠ some Cell.O := by rw [hwn]; simp
        cases hturn : s.2 with
        | true =>
          obtain ⟨m, hm1, hm2, hm3, _⟩ :=
            minimax_move_nonterminal s.1 Cell.X Cell.O true hX hO hXO hw1 hw2 hdf
          have hget : get_ai_move s.1 Cell.X Cell.O = some m := by
            unfold get_ai_move
            rw [hm1]
          have hstep : stepGame adv s = (s.1.set m Cell.X, false) := by
            simp only [stepGame]
            rw [if_pos hip, if_pos hturn, hget]
          rw [hstep]
          have h3 : gameValue (s.1.set m Cell.X) Cell.X Cell.O false
              = gameValue s.1 Cell.X Cell.O true := by
            simpa using hm3
          rw [hturn] at ihv
          constructor
          · show 0 ≤ gameValue (s.1.set m Cell.X) Cell.X Cell.O false
            rw [h3]
            exact ihv
          · intro _
            show countEmpty (s.1.set m Cell.X) + (n + 1) = 9
            have hce := countEmpty_set hm2 hX
            have hcount := ihc hip
            omega
        | false =>
          have hleg : s.1.get? (adv s.1) = some Cell.empty := hadv s.1 hip
          have hnottrue : ¬(s.2 = true) := by rw [hturn]; simp
          have hstep : stepGame adv s = (s.1.set (adv s.1) Cell.O, true) := by
            simp only [stepGame]
            rw [if_pos hip, if_neg hnottrue]
          rw [hstep]
          rw [hturn] at ihv
          constructor
          · show 0 ≤ gameValue (s.1.set (adv s.1) Cell.O) Cell.X Cell.O true
            have hmin := gameValue_min_child Cell.X Cell.O hO hw1 hw2 hdf hleg
            exact le_trans ihv hmin
          · intro _
            show countEmpty (s.1.set (adv s.1) Cell.O) + (n + 1) = 9
            have hce := countEmpty_set hleg hO
            have hcount := ihc hip
            omega
      · have hstep : stepGame adv s = s := by
          simp only [stepGame]
          rw [if_neg hip]
        rw [hstep]
        constructor
        · exact ihv
        · intro hc
          exact absurd hc hip
  intro n
  obtain ⟨hv, hc⟩ := key n
  constructor
  · intro hwo
    have hw : winner ((stepGame adv)^[n] (emptyBoard, true)).1 = some Cell.O :=
      outcome_winner_iff.mp hwo
    have hm1 := gameValue_winner_human hXO hw ((stepGame adv)^[n] (emptyBoard, true)).2
    rw [hm1] at hv
    omega
  · intro h9 hip
    have hsum := hc hip
    obtain ⟨hwn, hdf⟩ := outcome_inProgress_iff.mp hip
    have hnil := available_ne_nil hwn hdf
    obtain ⟨m0, tl, hcons⟩ := List.exists_cons_of_ne_nil hnil
    have hm0 : ((stepGame adv)^[n] (emptyBoard, true)).1.get? m0 = some Cell.empty :=
      mem_available_moves.mp (by rw [hcons]; exact List.mem_cons_self _ _)
    have hpos : 0 < countEmpty ((stepGame adv)^[n] (emptyBoard, true)).1 := by
      refine List.countP_pos.mpr ⟨Cell.empty, ?_, by simp⟩
      exact List.mem_iff_get?.mpr ⟨m0, hm0⟩
    unfold countEmpty at hpos
    unfold countEmpty at hsum
    omega

/-- Proof device: the adversary strategy that always answers with the
lowest-indexed legal move. -/
def advFirst : Board → Nat := fun b => (available_moves b).headD 0

/-- The lowest-index adversary always plays a legal move on a live board. -/
theorem advFirst_legal : ∀ b : Board, outcome b = Outcome.inProgress →
    b.get? (advFirst b) = some Cell.empty := by
  intro b hb
  obtain ⟨hwn, hdf⟩ := outcome_inProgress_iff.mp hb
  have hnil := available_ne_nil hwn hdf
  obtain ⟨m0, tl, hcons⟩ := List.exists_cons_of_ne_nil hnil
  have hhd : advFirst b = m0 := by
    unfold advFirst
    rw [hcons, List.headD_cons]
  rw [hhd]
  exact mem_available_moves.mp (by rw [hcons]; exact List.mem_cons_self _ _)

/-- Witness for C1: the lowest-index adversary is legal, and the conclusion
holds for it at ply 9. -/
theorem ai_never_loses_from_empty_witness :
    (∀ b : Board, outcome b = Outcome.inProgress →
        b.get? (advFirst b) = some Cell.empty)
    ∧ outcome ((stepGame advFirst)^[9] (emptyBoard, true)).1 ≠ Outcome.winner Cell.O
    ∧ (9 ≤ 9 →
        outcome ((stepGame advFirst)^[9] (emptyBoard, true)).1 ≠ Outcome.inProgress) :=
  ⟨advFirst_legal,
   (ai_never_loses_from_empty advFirst advFirst_legal 9).1,
   (ai_never_loses_from_empty advFirst advFirst_legal 9).2⟩
